import Mathlib

/-!
Verification of the Mnemosyne duplicate-report detection core against its
natural-language specification.

The development shallowly embeds the three core components:
- `src/mnemosyne/core/truncation.py` (section-priority report truncation),
- `src/mnemosyne/core/search.py` (hybrid retrieval and re-ranking),
- `src/mnemosyne/agents/react.py` (the iterative detection controller).

Python strings are modelled as `List Char` (`Str`), Python `int` as `Nat`/`Int`
(with `Int` where the source can go negative), and float similarity scores as
`ℚ`.  External collaborators (embedding models, the vector store, the
re-ranking model, `json.loads`, and the reasoning-service loop of the Claude
Agent SDK) are modelled as oracle parameters: each external call's outcome is
an input of the embedded function, so theorems quantify over every possible
collaborator behaviour.
-/

namespace Mnemosyne

/-- Python strings, modelled as lists of characters. -/
abbrev Str := List Char

/-- Coerce a Lean string literal to the `List Char` model. -/
def str (s : String) : Str := s.data

/-- `startsWithStr pat s` : does `s` start with `pat`? (Python `str.startswith`,
also the anchored-at-position test used to model `re` scanning.) -/
def startsWithStr : Str → Str → Bool
  | [], _ => true
  | _ :: _, [] => false
  | a :: as, b :: bs => a = b && startsWithStr as bs

/-- Python `text.split(sep)` for a single-character separator: always returns a
non-empty list; `"".split(c) = [""]`. -/
def splitSep (c : Char) : Str → List Str
  | [] => [[]]
  | d :: rest =>
    if d = c then [] :: splitSep c rest
    else
      match splitSep c rest with
      | [] => [[d]]
      | l :: ls => (d :: l) :: ls

/-- Python `sep.join(parts)`. -/
def joinSep (sep : Str) : List Str → Str
  | [] => []
  | [x] => x
  | x :: xs => x ++ sep ++ joinSep sep xs

/-- Characters removed by Python's default `str.strip()`. -/
def isPySpace (c : Char) : Bool :=
  c = ' ' || c = '\t' || c = '\n' || c = '\r' || c = '\x0b' || c = '\x0c'

/-- Python `str.strip()` (default whitespace stripping on both ends). -/
def pyStrip (s : Str) : Str :=
  ((s.dropWhile isPySpace).reverse.dropWhile isPySpace).reverse

/-- Case folding used to model `re.IGNORECASE` matching of ASCII keywords. -/
def lowerStr (s : Str) : Str := s.map Char.toLower

/-- Decimal digit character, as produced by Python `str(i)` for `0 ≤ i ≤ 9`. -/
def digitChar (d : Nat) : Char := Char.ofNat (48 + d)

/-- Fuel-driven decimal rendering of a natural number (`str(n)` in Python).
The fuel only serves to make the recursion structural; `natDecimal` always
passes enough. -/
def natDecimalAux : Nat → Nat → Str
  | 0, _ => []
  | fuel + 1, n =>
    if n < 10 then [digitChar n]
    else natDecimalAux fuel (n / 10) ++ [digitChar (n % 10)]

/-- Python `str(n)` for a natural number `n`. -/
def natDecimal (n : Nat) : Str := natDecimalAux (n + 1) n

/-!
## Truncation engine (`src/mnemosyne/core/truncation.py`)
-/

/-- `truncation.Section`: a report section with a priority rank and a
"never truncate" flag. -/
structure Section where
  name : Str
  content : Str
  priority : Nat
  preserve_complete : Bool
deriving DecidableEq, Repr

/-- `ReportTruncator.estimate_tokens`: `len(text) // 4`. -/
def estimate_tokens (text : Str) : Nat := text.length / 4

/-- `ReportTruncator.SECTION_PATTERNS`, in source (insertion) order.  Each
regex `^#+ ?(kw1|kw2|…)` is represented by its keyword alternatives: after the
leading `#` run and optional space, the pattern matches iff one of the keywords
is a (case-insensitive) prefix of the remainder (`re.match` is a prefix match).
The source's `logs?` alternative is equivalent to the prefix keyword `log`. -/
def SECTION_PATTERNS : List (List Str × Str × Nat × Bool) :=
  [ ([str "title", str "vulnerability", str "summary", str "description",
      str "overview"], (str "Title/Summary", 1, true)),
    ([str "reproduction", str "steps", str "reproduce", str "how to",
      str "poc", str "proof"], (str "Reproduction Steps", 1, true)),
    ([str "payload", str "exploit", str "code", str "request",
      str "response", str "technical"], (str "Technical Artifacts", 1, true)),
    ([str "impact", str "severity", str "affected", str "vulnerable"],
      (str "Impact/Severity", 2, false)),
    ([str "remediation", str "fix", str "mitigation", str "recommendation"],
      (str "Remediation", 2, false)),
    ([str "affected", str "technologies", str "stack", str "environment"],
      (str "Technologies", 2, false)),
    ([str "background", str "context", str "introduction", str "about"],
      (str "Background", 3, false)),
    ([str "timeline", str "discovery", str "disclosure"],
      (str "Timeline", 3, false)),
    ([str "log", str "output", str "debug", str "trace"],
      (str "Logs", 4, false)),
    ([str "screenshot", str "image", str "video", str "attachment"],
      (str "Media", 4, false)),
    ([str "metadata", str "info", str "details", str "additional"],
      (str "Metadata", 4, false)) ]

/-- The per-line header test of `identify_sections`: try the patterns in
order on `line.strip()` and return the first match's (name, priority,
preserve) triple.  A pattern `^#+ ?(…)` matches iff the stripped line starts
with at least one `#`; after the `#` run one optional space is consumed and
some keyword must be a case-insensitive prefix of what remains (no keyword
starts with `#` or a space, so maximal-`#`-run matching is exact). -/
def headerMatch (line : Str) : Option (Str × Nat × Bool) :=
  let stripped := pyStrip line
  if stripped.takeWhile (fun c => c = '#') = [] then none
  else
    let afterHash := stripped.dropWhile (fun c => c = '#')
    let rest :=
      match afterHash with
      | ' ' :: r => r
      | r => r
    let restLower := lowerStr rest
    (SECTION_PATTERNS.find?
      (fun p => p.1.any (fun kw => startsWithStr kw restLower))).map (·.2)

/-- The line-scanning loop of `ReportTruncator.identify_sections`.
`cur` is `current_section` (name, priority, preserve), `acc` is
`current_content` (only meaningful when `cur` is set, as in the source). -/
def identifySectionsGo :
    List Str → Option (Str × Nat × Bool) → List Str → List Section
  | [], cur, acc =>
    match cur with
    | none => []
    | some (n, p, pr) => [⟨n, joinSep [('\n')] acc, p, pr⟩]
  | line :: rest, cur, acc =>
    match headerMatch line with
    | some info =>
      (match cur with
       | some (n, p, pr) => [Section.mk n (joinSep [('\n')] acc) p pr]
       | none => ([] : List Section)) ++ identifySectionsGo rest (some info) [line]
    | none =>
      match cur with
      | none => identifySectionsGo rest (some (str "Introduction", 3, false)) [line]
      | some cur' => identifySectionsGo rest (some cur') (acc ++ [line])

/-- `ReportTruncator.identify_sections`. -/
def identify_sections (text : Str) : List Section :=
  identifySectionsGo (splitSep '\n' text) none []

/-- The fenced-code-block placeholder `"<<<CODE_BLOCK_{}>>>".format(i)`. -/
def placeholder (i : Nat) : Str :=
  str "<<<CODE_BLOCK_" ++ natDecimal i ++ str ">>>"

/-- Three backticks, the fence delimiter of the `re` pattern. -/
def tripleTick : Str := str "```"

/-- Split `s` at the first occurrence of ``` ``` ```: returns
`(before, after)` with `s = before ++ "```" ++ after`, or `none` when no
occurrence exists.  Used to model the lazy `[\s\S]*?` of the block regex
(the shortest middle reaches the first later fence). -/
def splitAtFirstTriple : Str → Option (Str × Str)
  | [] => none
  | c :: cs =>
    if startsWithStr tripleTick (c :: cs) then some ([], cs.drop 2)
    else (splitAtFirstTriple cs).map (fun p => (c :: p.1, p.2))

/-- One step of the `re.sub` scan for ```` ```[\s\S]*?``` ````: if a complete
fenced block starts at position 0, return its middle and the remainder after
the closing fence. -/
def pcbStep (s : Str) : Option (Str × Str) :=
  if startsWithStr tripleTick s then splitAtFirstTriple (s.drop 3) else none

/-- Fuel-driven left-to-right `re.sub` scan of `preserve_code_blocks`: each
matched block is replaced by `placeholder n` (placeholders numbered from `n`
upward) and collected.  The fuel makes the recursion structural;
`preserve_code_blocks` always passes enough (each step consumes at least one
character). -/
def pcbAux : Nat → Str → Nat → Str × List Str
  | 0, _, _ => ([], [])
  | fuel + 1, s, n =>
    match pcbStep s with
    | some (mid, rest) =>
      let p := pcbAux fuel rest (n + 1)
      (placeholder n ++ p.1, (tripleTick ++ mid ++ tripleTick) :: p.2)
    | none =>
      match s with
      | [] => ([], [])
      | c :: cs =>
        let p := pcbAux fuel cs n
        (c :: p.1, p.2)

/-- `ReportTruncator.preserve_code_blocks`: extract ```` ```…``` ```` blocks,
replacing the `i`-th with `<<<CODE_BLOCK_i>>>`. -/
def preserve_code_blocks (text : Str) : Str × List Str :=
  pcbAux text.length text 0

/-- Fuel-driven Python `str.replace(pat, rep)` (all non-overlapping
occurrences, scanning left to right).  The guard on an empty `pat` keeps the
scan well-defined; every call from the source passes a non-empty placeholder.
`replaceAll` always passes enough fuel (each step consumes a character). -/
def replaceAllFuel : Nat → Str → Str → Str → Str
  | 0, _, _, s => s
  | fuel + 1, pat, rep, s =>
    match s with
    | [] => []
    | c :: cs =>
      if pat ≠ [] && startsWithStr pat (c :: cs) then
        rep ++ replaceAllFuel fuel pat rep ((c :: cs).drop pat.length)
      else c :: replaceAllFuel fuel pat rep cs

/-- Python `text.replace(pat, rep)`. -/
def replaceAll (pat rep s : Str) : Str := replaceAllFuel s.length pat rep s

/-- `ReportTruncator.restore_code_blocks`, generalised over the first
placeholder index (the source starts `enumerate` at 0). -/
def restoreCodeBlocksFrom (i : Nat) (t : Str) : List Str → Str
  | [] => t
  | b :: bs => restoreCodeBlocksFrom (i + 1) (replaceAll (placeholder i) b t) bs

/-- `ReportTruncator.restore_code_blocks`. -/
def restore_code_blocks (text : Str) (code_blocks : List Str) : Str :=
  restoreCodeBlocksFrom 0 text code_blocks

/-- Python `lines[-k:]` for `k ≥ 0`: the last `k` lines, except that `k = 0`
means the whole list (`lines[-0:] = lines[0:]`); the source never reaches
`k = 0` because `keep_lines ≥ 1` forces `last_count ≥ 1`. -/
def takeLastPy (k : Nat) (l : List Str) : List Str :=
  if k = 0 then l else l.drop (l.length - k)

/-- `ReportTruncator.truncate_section`.  `target_tokens` is an `Int` because
the caller passes `remaining_budget`, a possibly negative Python int (though
only positive values reach this call).  The float expressions
`int(len(lines) * (target/estimated))` and `int(keep_lines * 0.7)` are modelled
by exact rational arithmetic (truncation of a non-negative value = floor,
i.e. Nat division); for a non-positive target the product is non-positive, so
`keep_lines < 10` and the `min(10, len(lines))` bump applies exactly as in the
source. -/
def truncate_section (sec : Section) (target_tokens : Int) : Str :=
  let pcb := preserve_code_blocks sec.content
  let content := pcb.1
  let code_blocks := pcb.2
  let estimated := estimate_tokens content
  if (estimated : Int) ≤ target_tokens then
    restore_code_blocks content code_blocks
  else
    let lines := splitSep '\n' content
    let keep_lines0 := lines.length * target_tokens.toNat / estimated
    let keep_lines :=
      if keep_lines0 < 10 then min 10 lines.length else keep_lines0
    let first_count := keep_lines * 7 / 10
    let last_count := keep_lines - first_count
    let marker :=
      str "\n... [truncated " ++ natDecimal (lines.length - keep_lines) ++
        str " lines] ...\n"
    let truncated_lines := lines.take first_count ++ [marker] ++
      takeLastPy last_count lines
    restore_code_blocks (joinSep [('\n')] truncated_lines) code_blocks

/-- Stable insertion placing `x` after every already-placed element `y` with
`le y x`; `pySort` below therefore reproduces Python's stable `list.sort`. -/
def insertLe (le : α → α → Bool) (x : α) : List α → List α
  | [] => [x]
  | y :: ys => if le y x then y :: insertLe le x ys else x :: y :: ys

/-- Stable sort (insertion sort, processing the list left to right), used to
model Python's stable `list.sort(key=…)`; `le` is "key ≤ key". -/
def pySort (le : α → α → Bool) (l : List α) : List α :=
  l.foldl (fun acc x => insertLe le x acc) []

/-- The first sort key of `truncate`:
`key=lambda s: (s.priority, -estimate_tokens(s.content))`. -/
def sectionLe (a b : Section) : Bool :=
  Nat.blt a.priority b.priority ||
    (a.priority == b.priority &&
      Nat.ble (estimate_tokens b.content) (estimate_tokens a.content))

/-- The per-section allocation loop of `truncate` over the non-preserved
sections: returns the `(section, kept content)` pairs, threading
`remaining_budget` (an `Int`, as in the source it may go negative). -/
def processOthers : List (Section × Nat) → Int → List (Section × Str)
  | [], _ => []
  | (s, tokens) :: rest, remaining =>
    if remaining ≤ 0 then processOthers rest remaining
    else if (tokens : Int) ≤ remaining then
      (s, s.content) :: processOthers rest (remaining - tokens)
    else
      let tc := truncate_section s remaining
      (s, tc) :: processOthers rest (remaining - estimate_tokens tc)

/-- `section_tokens` of `truncate`: the stable sort by
`(priority, -estimated size)` paired with each section's estimate. -/
def sectionTokensOf (sections : List Section) : List (Section × Nat) :=
  (pySort sectionLe sections).map (fun s => (s, estimate_tokens s.content))

/-- `preserved_sections` of `truncate`. -/
def preservedSectionsOf (sections : List Section) : List (Section × Nat) :=
  (sectionTokensOf sections).filter (fun p => p.1.preserve_complete)

/-- `preserved_total` of `truncate`. -/
def preservedTotalOf (sections : List Section) : Nat :=
  ((preservedSectionsOf sections).map (·.2)).sum

/-- `other_sections` of `truncate`. -/
def otherSectionsOf (sections : List Section) : List (Section × Nat) :=
  (sectionTokensOf sections).filter (fun p => !p.1.preserve_complete)

/-- `all_sections` of `truncate`: the preserved sections kept whole, followed
by the allocation loop's output, before the final stable re-sort. -/
def allSectionsOf (effective_max : Int) (sections : List Section) :
    List (Section × Str) :=
  (preservedSectionsOf sections).map (fun p => (p.1, p.1.content)) ++
    processOthers (otherSectionsOf sections)
      (effective_max - preservedTotalOf sections)

/-- The sectioned (non-fallback) path of `ReportTruncator.truncate`, from
`sections.sort(…)` to the final `"\n\n".join` (the final stable sort is by
priority alone). -/
def truncateSectioned (effective_max : Int) (sections : List Section) : Str :=
  joinSep (str "\n\n")
    ((pySort (fun a b => Nat.ble a.1.priority b.1.priority)
      (allSectionsOf effective_max sections)).map (·.2))

/-- The overshoot check for the amended C3: replays the allocation loop of
`truncate` and checks that every call to `truncate_section` returned content
whose estimate fits the target it was given (the 10-line minimum keep, the
elision marker and restored fenced code blocks can all make a call
overshoot). -/
def noOvershoot : List (Section × Nat) → Int → Bool
  | [], _ => true
  | (s, tokens) :: rest, remaining =>
    if remaining ≤ 0 then noOvershoot rest remaining
    else if (tokens : Int) ≤ remaining then
      noOvershoot rest (remaining - tokens)
    else
      decide ((estimate_tokens (truncate_section s remaining) : Int) ≤ remaining) &&
        noOvershoot rest (remaining - estimate_tokens (truncate_section s remaining))

/-- The body of `ReportTruncator.truncate` with the unreachable
`sections == []` fallback removed: used to state that the fallback branch is
dead code (`identify_sections` never returns `[]`). -/
def truncateNoFallback (max_tokens token_buffer : Nat) (text : Str) : Str × Bool :=
  let effective_max : Int := (max_tokens : Int) - (token_buffer : Int)
  if (estimate_tokens text : Int) ≤ effective_max then (text, false)
  else (truncateSectioned effective_max (identify_sections text), true)

/-- `ReportTruncator.truncate` with the constructor parameters made explicit
(`effective_max = max_tokens - token_buffer`, an `Int` since Python's
subtraction may go negative).  The `sections = []` fallback's negative-slice
nuance (`text[:negative]`) is immaterial: that branch is unreachable
(`identify_sections` never returns `[]`, proved below). -/
def truncate (max_tokens token_buffer : Nat) (text : Str) : Str × Bool :=
  let effective_max : Int := (max_tokens : Int) - (token_buffer : Int)
  let estimated_tokens := estimate_tokens text
  if (estimated_tokens : Int) ≤ effective_max then (text, false)
  else
    let sections := identify_sections text
    if sections = [] then
      (text.take (effective_max * 4).toNat ++ str "\n\n... [truncated]", true)
    else
      (truncateSectioned effective_max sections, true)

/-!
## Retrieval pipeline (`src/mnemosyne/core/search.py`)

The external collaborators (dense/sparse embedding models, the Qdrant vector
store, the FlashRank re-ranking model) are modelled as oracle values: every
external call's outcome is an explicit input, so the embedded functions are
total and the theorems quantify over all collaborator behaviours.
-/

/-- The fields of `models.schema.NormalizedReport` that the retrieval pipeline
and controller read (the remaining normalization-only fields play no role in
the verified code paths). -/
structure NormalizedReport where
  title : Str
  summary : Str
  vulnerability_type : Str
  affected_component : Str
  reproduction_steps : List Str
deriving DecidableEq, Repr

/-- `models.schema.SearchResult`. -/
structure SearchResult where
  report_id : Str
  score : ℚ
  report : NormalizedReport
deriving DecidableEq, Repr

/-- A scored point returned by the vector store (id, score, payload). -/
structure Point where
  id : Str
  score : ℚ
  payload : NormalizedReport
deriving DecidableEq, Repr

/-- Outcomes of the external calls made by `HybridSearcher.hybrid_search`, in
call order.  The query representations themselves feed only into the (oracle)
store queries, so their values are elided; the store queries are functions of
the `limit` argument so that "same limit" is expressible. -/
structure HybridOracles where
  /-- `embedder.generate_embedding(query_text)` inside the `try` block. -/
  denseEmbed : Except Unit Unit
  /-- sparse (BM25) embedding of the query. -/
  sparseEmbed : Except Unit Unit
  /-- the RRF-fused dual-representation `query_points` call, per limit. -/
  fusedQuery : Nat → Except Unit (List Point)
  /-- `embedder.generate_embedding(query_text)` on the fallback path. -/
  denseEmbedFallback : Except Unit Unit
  /-- the dense-only `query_points` call of the fallback path, per limit. -/
  denseQuery : Nat → Except Unit (List Point)

/-- Conversion of store points to `SearchResult`s (the per-point loop). -/
def toSearchResults (pts : List Point) : List SearchResult :=
  pts.map (fun p => ⟨p.id, p.score, p.payload⟩)

/-- The dual-representation path of `hybrid_search` (the `try` block):
dense embedding, then sparse embedding, then the fused RRF query. -/
def dualPath (o : HybridOracles) (lim : Nat) : Except Unit (List Point) :=
  match o.denseEmbed with
  | Except.error e => Except.error e
  | Except.ok _ =>
    match o.sparseEmbed with
    | Except.error e => Except.error e
    | Except.ok _ => o.fusedQuery lim

/-- The dense-only fallback path of `hybrid_search` (the `except` block):
re-embed the query, then a dense `query_points` call with the same limit.
Failures here propagate to the caller (no further handler). -/
def densePath (o : HybridOracles) (lim : Nat) : Except Unit (List SearchResult) :=
  match o.denseEmbedFallback with
  | Except.error e => Except.error e
  | Except.ok _ =>
    match o.denseQuery lim with
    | Except.error e => Except.error e
    | Except.ok pts => Except.ok (toSearchResults pts)

/-- `HybridSearcher.hybrid_search`: any failure on the dual-representation
path falls back to the dense-only path with the same `limit`; an
`Except.error` result models an exception escaping to the caller. -/
def hybrid_search (o : HybridOracles) (lim : Nat) :
    Except Unit (List SearchResult) :=
  match dualPath o lim with
  | Except.ok pts => Except.ok (toSearchResults pts)
  | Except.error _ => densePath o lim

/-- The passage text built per candidate by `rerank_results`:
`f"{title} | {type} in {component} | {summary} | Steps: {' '.join(steps[:3])}"`. -/
def buildPassage (r : SearchResult) : Str :=
  r.report.title ++ str " | " ++ r.report.vulnerability_type ++ str " in " ++
    r.report.affected_component ++ str " | " ++ r.report.summary ++
    str " | Steps: " ++ joinSep [(' ')] (r.report.reproduction_steps.take 3)

/-- `HybridSearcher.rerank_results`.  `rerankOutcome` is the external
FlashRank call's outcome: on success, the ranked `(id, score)` passage list
(sorted by the model); on failure, the degraded path returns the first
`top_k` input candidates unmodified.  Each surviving candidate's score is
replaced by the model's score; ids unknown to the candidate list are dropped
(`next(…, None)`). -/
def rerank_results (rerankOutcome : Except Unit (List (Str × ℚ)))
    (candidates : List SearchResult) (top_k : Nat) : List SearchResult :=
  if candidates = [] then []
  else
    match rerankOutcome with
    | Except.error _ => candidates.take top_k
    | Except.ok ranked =>
      (ranked.take top_k).filterMap (fun p =>
        (candidates.find? (fun r => r.report_id == p.1)).map
          (fun original => ⟨original.report_id, p.2, original.report⟩))

/-!
## Detection controller (`src/mnemosyne/agents/react.py`)

The controller's own logic — the `hybrid_search` tool's metadata, the
`PreToolUse` query-validation hook, the `PostToolUse` early-stopping hook, and
the verdict synthesis of `search_duplicates` — is embedded from the source.
The Claude-Agent-SDK loop that drives them (turn sequencing, honouring a
`deny` permission decision, stopping on `continue_ = False`, the `max_turns`
cap, and the final `ResultMessage`) is an external collaborator; it is
modelled from the spec's controller contract (spec §4.3) as the `runDetection`
step function below, with the reasoning service as an oracle of turns.
-/

/-- One entry of the `candidates` list stored in the tool metadata. -/
structure CandInfo where
  report_id : Str
  score : ℚ
  title : Str
  vtype : Str
deriving DecidableEq, Repr

/-- The `_last_tool_metadata` record set by `hybrid_search_tool` (module-level
slot read by the hooks and the `ResultMessage` handler).  `top_report_id` is
`None` exactly when the metadata omits the key (empty result or tool error),
matching `metadata.get("top_report_id")`. -/
structure ToolMetadata where
  result_count : Nat
  top_score : ℚ
  top_report_id : Option Str
  candidates : List CandInfo
deriving DecidableEq, Repr

/-- The initial module-level `_last_tool_metadata = {}`: every `get` with a
default yields that default. -/
def initMetadata : ToolMetadata := ⟨0, 0, none, []⟩

/-- The metadata stored by `hybrid_search_tool` after a successful search,
given the re-ranked result list (the metadata of the `except` branch of the
tool coincides with the empty-result metadata on the fields the hooks read). -/
def metadataOf (reranked : List SearchResult) : ToolMetadata :=
  match reranked with
  | [] => ⟨0, 0, none, []⟩
  | top :: _ =>
    ⟨reranked.length, top.score, some top.report_id,
      reranked.map (fun r =>
        ⟨r.report_id, r.score, r.report.title, r.report.vulnerability_type⟩)⟩

/-- Python truthiness of the optional `top_report_id` string (`None` and the
empty string are falsy). -/
def truthyId : Option Str → Bool
  | none => false
  | some s => !s.isEmpty

/-- The tool name the hooks match on. -/
def hybridSearchToolName : Str := str "mcp__dedup__hybrid_search"

/-- `query_validation_hook`: returns `some denialReason` when the hook denies
execution (a `PreToolUse` `permissionDecision = "deny"`), `none` when the call
may proceed.  Only `hybrid_search` calls are inspected; a query of fewer than
5 stripped characters is denied. -/
def query_validation_hook (tool_name query : Str) : Option Str :=
  if tool_name ≠ hybridSearchToolName then none
  else if (pyStrip query).length < 5 then
    some (str "Query is too short (< 5 characters). Please provide a more descriptive search query.")
  else none

/-- `early_stopping_hook`: `true` means the hook stops the run
(`continue_ = False`), which happens exactly when the last tool metadata has
`top_score > 0.9` and a truthy `top_report_id`. -/
def early_stopping_hook (tool_name : Str) (metadata : ToolMetadata) : Bool :=
  if tool_name ≠ hybridSearchToolName then false
  else decide (metadata.top_score > mkRat 9 10) && truthyId metadata.top_report_id

/-- The JSON object fields read out of a parsed final answer; each field is
`none` when the key is absent (`dict.get` then falls back to its default).
`json.loads` itself is external; it enters as an oracle below. -/
structure ParsedAnswer where
  is_duplicate : Option Bool
  similarity_score : Option ℚ
  matched_report_id : Option (Option Str)
  status : Option Str
deriving DecidableEq

/-- Python `text.find(c)`: index of the first occurrence, `-1` if absent. -/
def pyFind (c : Char) (s : Str) : Int :=
  match s.findIdx? (fun d => d = c) with
  | some i => (i : Int)
  | none => -1

/-- Python `text.rfind(c)`: index of the last occurrence, `-1` if absent. -/
def pyRFind (c : Char) (s : Str) : Int :=
  match s.reverse.findIdx? (fun d => d = c) with
  | some i => ((s.length : Int) - 1 - i)
  | none => -1

/-- `ReactAgent._parse_json_from_text`: slice from the first `{` to the last
`}` (inclusive) and hand the slice to `json.loads` (the oracle `J`, which
returns `none` on a `JSONDecodeError`). -/
def parse_json_from_text (J : Str → Option ParsedAnswer) (text : Str) :
    Option ParsedAnswer :=
  let json_start := pyFind '{' text
  let json_end := pyRFind '}' text + 1
  if json_start ≥ 0 ∧ json_end > json_start then
    J ((text.take json_end.toNat).drop json_start.toNat)
  else none

/-- `models.schema.DuplicateDetectionResult` (the `matched_report` payload is
`None` on every path of `search_duplicates`, so it is elided). -/
structure DetectionVerdict where
  is_duplicate : Bool
  similarity_score : ℚ
  matched_report_id : Option Str
  status : Str
  candidates : List CandInfo
deriving DecidableEq, Repr

/-- `ReactAgent._create_fallback_result`: the parse-failure fallback verdict. -/
def create_fallback_result : DetectionVerdict :=
  ⟨false, 0, none, str "new", []⟩

/-- The `ResultMessage` handler of `ReactAgent.search_duplicates`: first the
early-stopping metadata check (`top_score > 0.9` and truthy id ⇒ synthesized
duplicate verdict), then JSON parsing of the last assistant text (defaults:
`is_duplicate=False`, `similarity_score=0.0`, `matched_report_id=None`,
`status="new"`), then the fallback result.  `all_candidates` is the run's
accumulated candidate list (initialised `[]` and never extended by the
source, but kept as a parameter for fidelity). -/
def verdictFromRun (J : Str → Option ParsedAnswer) (metadata : ToolMetadata)
    (last_text : Str) (all_candidates : List CandInfo) : DetectionVerdict :=
  if decide (metadata.top_score > mkRat 9 10) && truthyId metadata.top_report_id then
    ⟨true, metadata.top_score, metadata.top_report_id, str "duplicate",
      metadata.candidates⟩
  else
    match parse_json_from_text J last_text with
    | some parsed =>
      ⟨parsed.is_duplicate.getD false, parsed.similarity_score.getD 0,
        parsed.matched_report_id.getD none, parsed.status.getD (str "new"),
        all_candidates⟩
    | none => create_fallback_result

/-- One reasoning-service turn: either a tool invocation of `hybrid_search`
(possibly accompanied by a thought `TextBlock`) or a final text answer with
no tool call. -/
inductive AgentTurn where
  | toolCall (thought : Option Str) (query : Str) (lim : Nat)
  | finalText (t : Str)

/-- The per-run mutable state of a detection run: the module-level
`_last_tool_metadata` slot and `last_assistant_text`. -/
structure RunState where
  metadata : ToolMetadata
  last_text : Str
deriving Repr

/-- Modelled from the spec: the SDK-driven detection loop of
`ReactAgent.search_duplicates` (spec §4.3).  The reasoning service is the
oracle `turns` (turn `i` is its `i`-th reply); `retrieve` is the outcome of
executing the `hybrid_search` tool (the re-ranked result list, or a tool
error).  Each iteration: a final text ends the run (the `ResultMessage`
handler `verdictFromRun` runs on the final state); a tool call is first
submitted to `query_validation_hook` — a denial skips execution (metadata
untouched, denial reason fed back, the run continues) — otherwise the tool
executes, stores its metadata, and `early_stopping_hook` may stop the run.
When the fuel (`max_turns`, default 5) runs out the SDK ends the
conversation and the verdict is synthesized from the state reached. -/
def runDetection (J : Str → Option ParsedAnswer) (turns : Nat → AgentTurn)
    (retrieve : Str → Nat → Except Unit (List SearchResult)) :
    Nat → Nat → RunState → DetectionVerdict
  | 0, _, st => verdictFromRun J st.metadata st.last_text []
  | fuel + 1, i, st =>
    match turns i with
    | AgentTurn.finalText t => verdictFromRun J st.metadata t []
    | AgentTurn.toolCall thought q lim =>
      let st₀ := { st with last_text := thought.getD st.last_text }
      match query_validation_hook hybridSearchToolName q with
      | some _ => runDetection J turns retrieve fuel (i + 1) st₀
      | none =>
        let meta :=
          match retrieve q lim with
          | Except.ok res => metadataOf res
          | Except.error _ => ⟨0, 0, none, []⟩
        let st' := { st₀ with metadata := meta }
        if early_stopping_hook hybridSearchToolName meta then
          verdictFromRun J st'.metadata st'.last_text []
        else
          runDetection J turns retrieve fuel (i + 1) st'

/-!
## Helper lemmas
-/

/-- `split` always yields at least one piece (`"".split(c) = [""]`). -/
lemma splitSep_ne_nil (c : Char) (s : Str) : splitSep c s ≠ [] := by
  cases s with
  | nil => simp [splitSep]
  | cons d rest =>
    simp only [splitSep]
    split
    · simp
    · split <;> simp

/-- The section scan emits at least one section once a current section is
open or input lines remain. -/
lemma identifySectionsGo_ne_nil :
    ∀ (ls : List Str) (cur : Option (Str × Nat × Bool)) (acc : List Str),
      cur.isSome = true ∨ ls ≠ [] → identifySectionsGo ls cur acc ≠ []
  | [], none, _, h => by simp at h
  | [], some (n, p, pr), acc, _ => by simp [identifySectionsGo]
  | line :: rest, cur, acc, _ => by
    simp only [identifySectionsGo]
    cases hm : headerMatch line with
    | some info =>
      have hne := identifySectionsGo_ne_nil rest (some info) [line] (Or.inl rfl)
      intro hcontra
      rcases List.append_eq_nil.mp hcontra with ⟨_, h2⟩
      exact hne h2
    | none =>
      cases cur with
      | none =>
        exact identifySectionsGo_ne_nil rest
          (some (str "Introduction", 3, false)) [line] (Or.inl rfl)
      | some cur' =>
        exact identifySectionsGo_ne_nil rest (some cur') (acc ++ [line])
          (Or.inl rfl)

/-- `identify_sections` never returns the empty list: unmatched leading
content always opens the default "Introduction" section. -/
lemma identify_sections_ne_nil (text : Str) : identify_sections text ≠ [] :=
  identifySectionsGo_ne_nil _ none [] (Or.inr (splitSep_ne_nil '\n' text))

/-- Prepending a character to the first piece prepends it to the join. -/
lemma joinSep_cons_head (sep : Str) (a : Char) (x : Str) (ls : List Str) :
    joinSep sep ((a :: x) :: ls) = a :: joinSep sep (x :: ls) := by
  cases ls with
  | nil => rfl
  | cons y ys => simp [joinSep]

/-- `join` undoes `split`. -/
lemma joinSep_splitSep (c : Char) (s : Str) :
    joinSep [c] (splitSep c s) = s := by
  induction s with
  | nil => rfl
  | cons d rest ih =>
    by_cases hd : d = c
    · subst hd
      rw [splitSep]
      simp only [if_pos rfl]
      cases hsp : splitSep d rest with
      | nil => exact absurd hsp (splitSep_ne_nil d rest)
      | cons l ls =>
        rw [hsp] at ih
        calc joinSep [d] ([] :: l :: ls) = d :: joinSep [d] (l :: ls) := by
              simp [joinSep]
          _ = d :: rest := by rw [ih]
    · rw [splitSep]
      simp only [if_neg hd]
      cases hsp : splitSep c rest with
      | nil => exact absurd hsp (splitSep_ne_nil c rest)
      | cons l ls =>
        rw [hsp] at ih
        rw [joinSep_cons_head, ih]

/-- `join` distributes over append of non-empty piece lists. -/
lemma joinSep_append (sep : Str) (a b : List Str) (ha : a ≠ []) (hb : b ≠ []) :
    joinSep sep (a ++ b) = joinSep sep a ++ sep ++ joinSep sep b := by
  induction a with
  | nil => exact absurd rfl ha
  | cons x xs ih =>
    cases xs with
    | nil =>
      cases b with
      | nil => exact absurd rfl hb
      | cons y ys => simp [joinSep]
    | cons y ys =>
      have ih' := ih (by simp)
      calc joinSep sep (x :: (y :: ys) ++ b)
          = x ++ sep ++ joinSep sep ((y :: ys) ++ b) := by simp [joinSep]
        _ = x ++ sep ++ (joinSep sep (y :: ys) ++ sep ++ joinSep sep b) := by
              rw [ih']
        _ = joinSep sep (x :: y :: ys) ++ sep ++ joinSep sep b := by
              simp [joinSep]

/-- The join of a middle chunk of pieces appears contiguously inside the join
of the whole piece list. -/
lemma joinSep_middle_infix (sep : Str) (pre mid post : List Str) :
    ∃ u v, joinSep sep (pre ++ mid ++ post) = u ++ joinSep sep mid ++ v := by
  by_cases hmid : mid = []
  · exact ⟨[], joinSep sep (pre ++ mid ++ post), by simp [hmid, joinSep]⟩
  · by_cases hpre : pre = []
    · by_cases hpost : post = []
      · exact ⟨[], [], by simp [hpre, hpost]⟩
      · refine ⟨[], sep ++ joinSep sep post, ?_⟩
        simp only [hpre, List.nil_append]
        rw [joinSep_append sep mid post hmid hpost]
        simp
    · by_cases hpost : post = []
      · refine ⟨joinSep sep pre ++ sep, [], ?_⟩
        simp only [hpost, List.append_nil]
        rw [joinSep_append sep pre mid hpre hmid]
      · refine ⟨joinSep sep pre ++ sep, sep ++ joinSep sep post, ?_⟩
        rw [joinSep_append sep (pre ++ mid) post (by simp [hpre]) hpost,
          joinSep_append sep pre mid hpre hmid]
        simp
/-- Every piece appears contiguously inside the join. -/
lemma mem_joinSep_infix (sep : Str) (x : Str) (l : List Str) (hx : x ∈ l) :
    ∃ u v, joinSep sep l = u ++ x ++ v := by
  obtain ⟨s, t, rfl⟩ := List.append_of_mem hx
  have h := joinSep_middle_infix sep s [x] t
  simpa [joinSep] using h

/-- Stable insertion permutes to a cons. -/
lemma insertLe_perm (le : α → α → Bool) (x : α) (l : List α) :
    (insertLe le x l).Perm (x :: l) := by
  induction l with
  | nil => exact List.Perm.refl _
  | cons y ys ih =>
    rw [insertLe]
    split
    · exact (ih.cons y).trans (List.Perm.swap x y ys)
    · exact List.Perm.refl _

/-- The stable sort is a permutation of its input. -/
lemma pySort_perm (le : α → α → Bool) (l : List α) : (pySort le l).Perm l := by
  suffices h : ∀ (l acc : List α),
      (l.foldl (fun a x => insertLe le x a) acc).Perm (acc ++ l) by
    simpa using h l []
  intro l
  induction l with
  | nil => simp
  | cons x xs ih =>
    intro acc
    have h1 : ((x :: xs).foldl (fun a x => insertLe le x a) acc)
        = xs.foldl (fun a x => insertLe le x a) (insertLe le x acc) := by
      simp [List.foldl_cons]
    have h2 := ih (insertLe le x acc)
    have h3 : ((insertLe le x acc) ++ xs).Perm ((x :: acc) ++ xs) :=
      (insertLe_perm le x acc).append_right xs
    have h4 : ((x :: acc) ++ xs).Perm (acc ++ x :: xs) := by
      simpa using List.perm_middle.symm
    rw [h1]
    exact (h2.trans h3).trans h4

/-- Every section emitted by the scanning loop has as content the join of a
contiguous chunk of the input lines (prefixed by the pending accumulator). -/
lemma identifySectionsGo_content :
    ∀ (ls : List Str) (cur : Option (Str × Nat × Bool)) (acc : List Str)
      (s : Section), s ∈ identifySectionsGo ls cur acc →
      ∃ pre mid post, acc ++ ls = pre ++ mid ++ post ∧
        s.content = joinSep [('\n')] mid
  | [], none, acc, s, hs => by simp [identifySectionsGo] at hs
  | [], some (n, p, pr), acc, s, hs => by
    simp only [identifySectionsGo, List.mem_singleton] at hs
    exact ⟨[], acc, [], by simp, by rw [hs]⟩
  | line :: rest, cur, acc, s, hs => by
    simp only [identifySectionsGo] at hs
    cases hm : headerMatch line with
    | some info =>
      rw [hm] at hs
      rcases List.mem_append.mp hs with hleft | hright
      · cases cur with
        | none => simp at hleft
        | some cur' =>
          obtain ⟨n, p, pr⟩ := cur'
          simp only [List.mem_singleton] at hleft
          exact ⟨[], acc, line :: rest, by simp, by rw [hleft]⟩
      · obtain ⟨pre', mid', post', heq, hcontent⟩ :=
          identifySectionsGo_content rest (some info) [line] s hright
        exact ⟨acc ++ pre', mid', post', by
          rw [show acc ++ (line :: rest) = acc ++ ([line] ++ rest) by simp,
            ← List.append_assoc, List.append_assoc (acc ++ pre')]
          rw [List.append_assoc acc, heq]
          simp, hcontent⟩
    | none =>
      rw [hm] at hs
      cases cur with
      | none =>
        obtain ⟨pre', mid', post', heq, hcontent⟩ :=
          identifySectionsGo_content rest
            (some (str "Introduction", 3, false)) [line] s hs
        exact ⟨acc ++ pre', mid', post', by
          rw [show acc ++ (line :: rest) = acc ++ ([line] ++ rest) by simp]
          rw [heq, ← List.append_assoc, ← List.append_assoc], hcontent⟩
      | some cur' =>
        obtain ⟨pre', mid', post', heq, hcontent⟩ :=
          identifySectionsGo_content rest (some cur') (acc ++ [line]) s hs
        exact ⟨pre', mid', post', by
          rw [show acc ++ (line :: rest) = (acc ++ [line]) ++ rest by simp,
            heq], hcontent⟩

/-- Every identified section's content appears contiguously in the input
text. -/
lemma identify_sections_content (text : Str) (s : Section)
    (hs : s ∈ identify_sections text) :
    ∃ u v, text = u ++ s.content ++ v := by
  obtain ⟨pre, mid, post, heq, hcontent⟩ :=
    identifySectionsGo_content (splitSep '\n' text) none [] s hs
  simp only [List.nil_append] at heq
  obtain ⟨u, v, huv⟩ := joinSep_middle_infix [('\n')] pre mid post
  refine ⟨u, v, ?_⟩
  rw [← joinSep_splitSep '\n' text, heq, huv, hcontent]

/-- `truncate` never takes its fallback branch, so it reduces to the
two-branch form. -/
lemma truncate_eq (mt tb : Nat) (text : Str) :
    truncate mt tb text =
      if (estimate_tokens text : Int) ≤ (mt : Int) - (tb : Int) then
        (text, false)
      else
        (truncateSectioned ((mt : Int) - (tb : Int)) (identify_sections text),
          true) := by
  by_cases h : (estimate_tokens text : Int) ≤ (mt : Int) - (tb : Int) <;>
    simp [truncate, h, identify_sections_ne_nil text]

/-- A preserved section's content survives contiguously into the reassembled
sectioned output. -/
lemma truncateSectioned_preserved_infix (em : Int) (sections : List Section)
    (s : Section) (hs : s ∈ sections) (hp : s.preserve_complete = true) :
    ∃ u v, truncateSectioned em sections = u ++ s.content ++ v := by
  have h1 : s ∈ pySort sectionLe sections :=
    (pySort_perm sectionLe sections).mem_iff.mpr hs
  have h2 := List.mem_map_of_mem (fun s => (s, estimate_tokens s.content)) h1
  have h3 : (s, estimate_tokens s.content) ∈ preservedSectionsOf sections :=
    List.mem_filter.mpr ⟨h2, hp⟩
  have h4 := List.mem_map_of_mem (fun p => (p.1, p.1.content)) h3
  have h5 : ((s, s.content) : Section × Str) ∈ allSectionsOf em sections :=
    List.mem_append_left _ h4
  have h6 := (pySort_perm
    (fun (a b : Section × Str) => Nat.ble a.1.priority b.1.priority)
    (allSectionsOf em sections)).mem_iff.mpr h5
  have h7 := List.mem_map_of_mem (fun (p : Section × Str) => p.2) h6
  exact mem_joinSep_infix (str "\n\n") s.content _ h7

/-!
## C8 — under-budget texts are returned unchanged
-/

/-- C8: for every input text whose estimated token count (`len // 4`) is at
most the effective budget (`max_tokens - token_buffer`), `truncate` returns
exactly the input text unchanged together with the flag `false`. -/
theorem C8_under_budget_identity (max_tokens token_buffer : Nat) (text : Str)
    (h : (estimate_tokens text : Int) ≤ (max_tokens : Int) - (token_buffer : Int)) :
    truncate max_tokens token_buffer text = (text, false) := by
  simp [truncate, h]

/-- C8 witness: a concrete under-budget text is returned unchanged. -/
theorem C8_under_budget_identity_witness :
    ((estimate_tokens (str "# Summary\nA small report.") : Int) ≤
        (100 : Int) - (20 : Int)) ∧
      truncate 100 20 (str "# Summary\nA small report.") =
        (str "# Summary\nA small report.", false) :=
  ⟨by decide, C8_under_budget_identity 100 20 _ (by decide)⟩

/-!
## C10 — sections are never empty, so the blunt fallback is dead code
-/

/-- C10: for every input string, including the empty string,
`identify_sections` returns a non-empty list (unmatched leading content
becomes the default priority-3 "Introduction" section); consequently
`truncate` agrees everywhere with its own body with the "no sections
detected" character-based fallback branch removed — that branch is
unreachable. -/
theorem C10_no_sections_branch_unreachable (max_tokens token_buffer : Nat)
    (text : Str) :
    identify_sections text ≠ [] ∧
      truncate max_tokens token_buffer text =
        truncateNoFallback max_tokens token_buffer text := by
  refine ⟨identify_sections_ne_nil text, ?_⟩
  by_cases h : (estimate_tokens text : Int) ≤ (max_tokens : Int) - (token_buffer : Int) <;>
    simp [truncate, truncateNoFallback, h, identify_sections_ne_nil text]

/-!
## C5 — pre-call query validation
-/

/-- C5: in the detection loop, a `hybrid_search` call whose query strips to
fewer than 5 characters is denied by the validation hook before execution —
a denial reason is produced, the retrieval pipeline is not invoked (the step
equation continues the run with the tool metadata untouched and never
consults the `retrieve` oracle) — while a query stripping to at least 5
characters passes the hook and proceeds to execute the tool. -/
theorem C5_query_length_validation (J : Str → Option ParsedAnswer)
    (turns : Nat → AgentTurn)
    (retrieve : Str → Nat → Except Unit (List SearchResult))
    (fuel i : Nat) (st : RunState) (thought : Option Str) (q : Str) (lim : Nat)
    (hturn : turns i = AgentTurn.toolCall thought q lim) :
    ((pyStrip q).length < 5 →
      (∃ reason, query_validation_hook hybridSearchToolName q = some reason) ∧
        runDetection J turns retrieve (fuel + 1) i st =
          runDetection J turns retrieve fuel (i + 1)
            { st with last_text := thought.getD st.last_text }) ∧
    (5 ≤ (pyStrip q).length →
      query_validation_hook hybridSearchToolName q = none ∧
        runDetection J turns retrieve (fuel + 1) i st =
          (let meta :=
            match retrieve q lim with
            | Except.ok res => metadataOf res
            | Except.error _ => ⟨0, 0, none, []⟩
          let st' := { st with last_text := thought.getD st.last_text,
                               metadata := meta }
          if early_stopping_hook hybridSearchToolName meta then
            verdictFromRun J st'.metadata st'.last_text []
          else runDetection J turns retrieve fuel (i + 1) st')) := by
  constructor
  · intro hshort
    have hdeny : query_validation_hook hybridSearchToolName q =
        some (str "Query is too short (< 5 characters). Please provide a more descriptive search query.") := by
      simp [query_validation_hook, hshort]
    refine ⟨⟨_, hdeny⟩, ?_⟩
    simp [runDetection, hturn, hdeny]
  · intro hlong
    have hallow : query_validation_hook hybridSearchToolName q = none := by
      simp [query_validation_hook, Nat.not_lt.mpr hlong]
    refine ⟨hallow, ?_⟩
    simp [runDetection, hturn, hallow]

/-- C5 witness: the 4-character query `"sqli"` is denied at a concrete step. -/
theorem C5_query_length_validation_witness :
    ∃ reason, query_validation_hook hybridSearchToolName (str "sqli") = some reason :=
  ((C5_query_length_validation (fun _ => none)
      (fun _ => AgentTurn.toolCall none (str "sqli") 20)
      (fun _ _ => Except.ok []) 0 0 ⟨initMetadata, []⟩ none (str "sqli") 20
      rfl).1 (by decide)).1

/-!
## C2 — the `> 0.9` early-stopping short-circuit
-/

/-- C2: whenever an executed retrieval call returns a re-ranked list whose
top candidate has score strictly above 0.9 and a (non-empty) identifier, the
run terminates at once with the synthesized duplicate verdict —
`is_duplicate = true`, `similarity_score` the top score,
`matched_report_id` the top candidate's id, `status = "duplicate"` — and the
verdict is independent of the reasoning service's and parser's behaviour
beyond this turn: any oracles agreeing on this turn and this tool call
produce the same verdict, so no further reasoning iteration is issued. -/
theorem C2_early_stopping_short_circuit (J : Str → Option ParsedAnswer)
    (turns : Nat → AgentTurn)
    (retrieve : Str → Nat → Except Unit (List SearchResult))
    (fuel i : Nat) (st : RunState) (thought : Option Str) (q : Str) (lim : Nat)
    (r : SearchResult) (rest : List SearchResult)
    (hturn : turns i = AgentTurn.toolCall thought q lim)
    (hvalid : query_validation_hook hybridSearchToolName q = none)
    (hres : retrieve q lim = Except.ok (r :: rest))
    (hscore : r.score > mkRat 9 10)
    (hid : r.report_id ≠ []) :
    runDetection J turns retrieve (fuel + 1) i st =
      ⟨true, r.score, some r.report_id, str "duplicate",
        (metadataOf (r :: rest)).candidates⟩ ∧
    (∀ (J' : Str → Option ParsedAnswer) (turns' : Nat → AgentTurn)
        (retrieve' : Str → Nat → Except Unit (List SearchResult)),
      turns' i = AgentTurn.toolCall thought q lim →
      retrieve' q lim = Except.ok (r :: rest) →
      runDetection J' turns' retrieve' (fuel + 1) i st =
        ⟨true, r.score, some r.report_id, str "duplicate",
          (metadataOf (r :: rest)).candidates⟩) := by
  have hstop : early_stopping_hook hybridSearchToolName (metadataOf (r :: rest)) = true := by
    cases hrid : r.report_id with
    | nil => exact absurd hrid hid
    | cons a as => simp [early_stopping_hook, metadataOf, truthyId, hscore, hrid]
  have main : ∀ (J' : Str → Option ParsedAnswer) (turns' : Nat → AgentTurn)
      (retrieve' : Str → Nat → Except Unit (List SearchResult)),
      turns' i = AgentTurn.toolCall thought q lim →
      retrieve' q lim = Except.ok (r :: rest) →
      runDetection J' turns' retrieve' (fuel + 1) i st =
        ⟨true, r.score, some r.report_id, str "duplicate",
          (metadataOf (r :: rest)).candidates⟩ := by
    intro J' turns' retrieve' hturn' hres'
    have hvmeta : ∀ lt : Str, verdictFromRun J' (metadataOf (r :: rest)) lt [] =
        ⟨true, r.score, some r.report_id, str "duplicate",
          (metadataOf (r :: rest)).candidates⟩ := by
      intro lt
      cases hrid : r.report_id with
      | nil => exact absurd hrid hid
      | cons a as => simp [verdictFromRun, metadataOf, truthyId, hscore, hrid]
    simp [runDetection, hturn', hvalid, hres', hstop, hvmeta]
  exact ⟨main J turns retrieve hturn hres, main⟩

/-- C2 witness: a crafted retrieval response with top score 0.95 and a
matched identifier terminates a concrete 5-turn run within this single
iteration with the synthesized duplicate verdict. -/
theorem C2_early_stopping_short_circuit_witness :
    runDetection (fun _ => none)
      (fun _ => AgentTurn.toolCall none (str "xss in search bar") 20)
      (fun _ _ => Except.ok
        [⟨str "rep-1", mkRat 95 100, ⟨str "t", str "s", str "v", str "c", []⟩⟩])
      5 0 ⟨initMetadata, []⟩ =
    ⟨true, mkRat 95 100, some (str "rep-1"), str "duplicate",
      (metadataOf
        [⟨str "rep-1", mkRat 95 100, ⟨str "t", str "s", str "v", str "c", []⟩⟩]).candidates⟩ :=
  (C2_early_stopping_short_circuit (fun _ => none)
    (fun _ => AgentTurn.toolCall none (str "xss in search bar") 20)
    (fun _ _ => Except.ok
      [⟨str "rep-1", mkRat 95 100, ⟨str "t", str "s", str "v", str "c", []⟩⟩])
    4 0 ⟨initMetadata, []⟩ none (str "xss in search bar") 20
    ⟨str "rep-1", mkRat 95 100, ⟨str "t", str "s", str "v", str "c", []⟩⟩ []
    rfl (by decide) rfl (by decide) (by decide)).1

/-- The allocation loop never emits more pairs than it consumes. -/
lemma processOthers_length_le :
    ∀ (l : List (Section × Nat)) (remaining : Int),
      (processOthers l remaining).length ≤ l.length
  | [], _ => by simp [processOthers]
  | (s, tokens) :: rest, remaining => by
    rw [processOthers]
    by_cases h1 : remaining ≤ 0
    · simp only [if_pos h1]
      exact le_trans (processOthers_length_le rest remaining) (by simp)
    · simp only [if_neg h1]
      by_cases h2 : (tokens : Int) ≤ remaining
      · simpa [if_pos h2] using processOthers_length_le rest (remaining - tokens)
      · simpa [if_neg h2] using processOthers_length_le rest
          (remaining - estimate_tokens (truncate_section s remaining))

/-- When no `truncate_section` call overshoots its target, the allocation
loop's output estimates sum to at most the budget it was given. -/
lemma processOthers_sum_le :
    ∀ (l : List (Section × Nat)) (remaining : Int), 0 ≤ remaining →
      (∀ p ∈ l, p.2 = estimate_tokens p.1.content) →
      noOvershoot l remaining = true →
      (((processOthers l remaining).map
        (fun p => estimate_tokens p.2)).sum : Int) ≤ remaining
  | [], remaining, h0, _, _ => by simpa [processOthers] using h0
  | (s, tokens) :: rest, remaining, h0, hsnd, hnov => by
    rw [processOthers]
    rw [noOvershoot] at hnov
    by_cases h1 : remaining ≤ 0
    · simp only [if_pos h1] at hnov ⊢
      exact processOthers_sum_le rest remaining h0
        (fun p hp => hsnd p (List.mem_cons_of_mem _ hp)) hnov
    · simp only [if_neg h1] at hnov ⊢
      by_cases h2 : (tokens : Int) ≤ remaining
      · simp only [if_pos h2] at hnov ⊢
        have ih := processOthers_sum_le rest (remaining - tokens) (by omega)
          (fun p hp => hsnd p (List.mem_cons_of_mem _ hp)) hnov
        have hst : tokens = estimate_tokens s.content :=
          hsnd (s, tokens) (List.mem_cons_self _ _)
        simp only [List.map_cons, List.sum_cons]
        rw [Nat.cast_add]
        omega
      · simp only [if_neg h2] at hnov ⊢
        simp only [Bool.and_eq_true, decide_eq_true_eq] at hnov
        obtain ⟨hfit, hnov'⟩ := hnov
        have ih := processOthers_sum_le rest
          (remaining - estimate_tokens (truncate_section s remaining))
          (by omega) (fun p hp => hsnd p (List.mem_cons_of_mem _ hp)) hnov'
        simp only [List.map_cons, List.sum_cons]
        rw [Nat.cast_add]
        omega

/-- Length of a `"\n\n"` join: piece lengths plus two separator characters
per boundary. -/
lemma joinSep2_length_le :
    ∀ l : List Str, (joinSep (str "\n\n") l).length ≤
      (l.map List.length).sum + 2 * (l.length - 1)
  | [] => by simp [joinSep]
  | [x] => by simp [joinSep]
  | x :: y :: rest => by
    have ih := joinSep2_length_le (y :: rest)
    simp only [joinSep, List.length_append, List.map_cons, List.sum_cons,
      List.length_cons] at ih ⊢
    have hsep : (str "\n\n").length = 2 := rfl
    omega

/-- Character counts exceed four times their estimates by at most three per
piece (`len = 4 * (len / 4) + len % 4`). -/
lemma sum_length_le :
    ∀ l : List Str,
      (l.map List.length).sum ≤ 4 * (l.map estimate_tokens).sum + 3 * l.length
  | [] => by simp
  | x :: rest => by
    have ih := sum_length_le rest
    have hx : x.length ≤ 4 * estimate_tokens x + 3 := by
      unfold estimate_tokens
      omega
    simp only [List.map_cons, List.sum_cons, List.length_cons]
    omega

/-- A Boolean filter and its negation partition a list's length. -/
lemma length_filter_partition (p : α → Bool) :
    ∀ l : List α,
      (l.filter p).length + (l.filter (fun a => !p a)).length = l.length
  | [] => rfl
  | x :: rest => by
    have ih := length_filter_partition p rest
    by_cases hx : p x <;> simp [List.filter_cons, hx] <;> omega

/-- Every pair produced by the `section_tokens` stage carries its section's
estimate as second component. -/
lemma sectionTokensOf_snd (sections : List Section) :
    ∀ p ∈ sectionTokensOf sections, p.2 = estimate_tokens p.1.content := by
  intro p hp
  obtain ⟨s', _, rfl⟩ := List.mem_map.mp hp
  rfl

/-- Estimate bound for a reassembled pair list: if the per-pair estimates sum
within `B` and there are at most `N` pairs, the `"\n\n"`-joined text estimates
within `B + 2 * N`. -/
lemma joined_estimate_le (l : List (Section × Str)) (B : Int) (N : Nat)
    (hsum : ((l.map (fun p => estimate_tokens p.2)).sum : Int) ≤ B)
    (hlen : l.length ≤ N) :
    (estimate_tokens (joinSep (str "\n\n") (l.map (·.2))) : Int) ≤ B + 2 * N := by
  have hjoin := joinSep2_length_le (l.map (·.2))
  have hsl := sum_length_le (l.map (·.2))
  have hmm : ((l.map (·.2)).map estimate_tokens).sum =
      (l.map (fun p => estimate_tokens p.2)).sum := by
    rw [List.map_map]
    rfl
  have hlm : (l.map (·.2)).length = l.length := List.length_map _ _
  rw [hmm, hlm] at hsl
  rw [hlm] at hjoin
  unfold estimate_tokens
  omega

/-- The core C3 accounting bound on the sectioned path. -/
lemma truncateSectioned_estimate_le (em : Int) (sections : List Section)
    (hpt : (preservedTotalOf sections : Int) ≤ em)
    (hnov : noOvershoot (otherSectionsOf sections)
      (em - preservedTotalOf sections) = true) :
    (estimate_tokens (truncateSectioned em sections) : Int) ≤
      em + 2 * sections.length := by
  have hsnd : ∀ p ∈ otherSectionsOf sections,
      p.2 = estimate_tokens p.1.content :=
    fun p hp => sectionTokensOf_snd sections p (List.mem_of_mem_filter hp)
  have hproc := processOthers_sum_le (otherSectionsOf sections)
    (em - preservedTotalOf sections) (by omega) hsnd hnov
  have hpresmap : (((preservedSectionsOf sections).map
      (fun p => (p.1, p.1.content))).map
        (fun p => estimate_tokens p.2)).sum = preservedTotalOf sections := by
    rw [List.map_map]
    unfold preservedTotalOf
    congr 1
    apply List.map_congr_left
    intro p hp
    exact (sectionTokensOf_snd sections p (List.mem_of_mem_filter hp)).symm
  have htotal : (((allSectionsOf em sections).map
      (fun p => estimate_tokens p.2)).sum : Int) ≤ em := by
    unfold allSectionsOf
    rw [List.map_append, List.sum_append, Nat.cast_add, hpresmap]
    omega
  have hlenall : (allSectionsOf em sections).length ≤ sections.length := by
    unfold allSectionsOf
    rw [List.length_append, List.length_map]
    have hpart := length_filter_partition
      (fun p : Section × Nat => p.1.preserve_complete) (sectionTokensOf sections)
    have hlenst : (sectionTokensOf sections).length = sections.length := by
      unfold sectionTokensOf
      rw [List.length_map, (pySort_perm sectionLe sections).length_eq]
    have hlenproc := processOthers_length_le (otherSectionsOf sections)
      (em - preservedTotalOf sections)
    unfold preservedSectionsOf otherSectionsOf at *
    omega
  have hperm := pySort_perm
    (fun (a b : Section × Str) => Nat.ble a.1.priority b.1.priority)
    (allSectionsOf em sections)
  have hsumL : (((pySort (fun a b => Nat.ble a.1.priority b.1.priority)
      (allSectionsOf em sections)).map
        (fun p => estimate_tokens p.2)).sum : Int) ≤ em := by
    rw [(hperm.map (fun p => estimate_tokens p.2)).sum_eq]
    exact htotal
  have hlenL : (pySort (fun a b => Nat.ble a.1.priority b.1.priority)
      (allSectionsOf em sections)).length ≤ sections.length := by
    rw [hperm.length_eq]
    exact hlenall
  exact joined_estimate_le _ em sections.length hsumL hlenL

/-!
## Helper lemmas for the code-block roundtrip (C9)
-/

/-- `startsWithStr` is list-prefix decomposition. -/
lemma startsWithStr_iff :
    ∀ (p s : Str), startsWithStr p s = true ↔ ∃ t, s = p ++ t
  | [], s => by simp [startsWithStr]
  | a :: as, [] => by
    constructor
    · intro h
      simp [startsWithStr] at h
    · rintro ⟨t, ht⟩
      simp at ht
  | a :: as, b :: bs => by
    simp only [startsWithStr, Bool.and_eq_true, decide_eq_true_eq]
    constructor
    · rintro ⟨rfl, h⟩
      obtain ⟨t, rfl⟩ := (startsWithStr_iff as bs).mp h
      exact ⟨t, rfl⟩
    · rintro ⟨t, ht⟩
      injection ht with h1 h2
      exact ⟨h1.symm, (startsWithStr_iff as bs).mpr ⟨t, h2⟩⟩

/-- A list starts with itself (before any tail). -/
lemma startsWithStr_append_self (p t : Str) :
    startsWithStr p (p ++ t) = true :=
  (startsWithStr_iff p (p ++ t)).mpr ⟨t, rfl⟩

/-- A common prefix cancels on both sides of `startsWithStr`. -/
lemma startsWithStr_append_cancel :
    ∀ (p x y : Str), startsWithStr (p ++ x) (p ++ y) = startsWithStr x y
  | [], _, _ => rfl
  | a :: as, x, y => by
    show (decide (a = a) && startsWithStr (as ++ x) (as ++ y)) = startsWithStr x y
    rw [startsWithStr_append_cancel as x y]
    simp

/-- `str.replace` on the empty string. -/
lemma replaceAllFuel_nil (f : Nat) (pat rep : Str) :
    replaceAllFuel f pat rep [] = [] := by
  cases f <;> rfl

/-- The fuel of `replaceAllFuel` is irrelevant once it covers the input
length. -/
lemma replaceAllFuel_congr :
    ∀ (f1 f2 : Nat) (pat rep s : Str), s.length ≤ f1 → s.length ≤ f2 →
      replaceAllFuel f1 pat rep s = replaceAllFuel f2 pat rep s
  | 0, f2, pat, rep, s, h1, _ => by
    have : s = [] := List.length_eq_zero.mp (Nat.le_zero.mp h1)
    subst this
    rw [replaceAllFuel_nil, replaceAllFuel_nil]
  | f1 + 1, 0, pat, rep, s, _, h2 => by
    have : s = [] := List.length_eq_zero.mp (Nat.le_zero.mp h2)
    subst this
    rw [replaceAllFuel_nil, replaceAllFuel_nil]
  | f1 + 1, f2 + 1, pat, rep, [], _, _ => by
    rw [replaceAllFuel_nil, replaceAllFuel_nil]
  | f1 + 1, f2 + 1, pat, rep, c :: cs, h1, h2 => by
    rw [replaceAllFuel, replaceAllFuel]
    simp only [List.length_cons] at h1 h2
    by_cases hcond : (pat ≠ [] && startsWithStr pat (c :: cs)) = true
    · simp only [if_pos hcond]
      have hcond' : pat ≠ [] ∧ startsWithStr pat (c :: cs) = true := by
        simpa using hcond
      have hp1 : 1 ≤ pat.length := by
        cases pat with
        | nil => exact absurd rfl hcond'.1
        | cons _ _ => simp
      have hlen : ((c :: cs).drop pat.length).length ≤ f1 := by
        rw [List.length_drop]
        simp only [List.length_cons]
        omega
      have hlen2 : ((c :: cs).drop pat.length).length ≤ f2 := by
        rw [List.length_drop]
        simp only [List.length_cons]
        omega
      rw [replaceAllFuel_congr f1 f2 pat rep _ hlen hlen2]
    · simp only [if_neg hcond]
      rw [replaceAllFuel_congr f1 f2 pat rep cs (by omega) (by omega)]

/-- One-step unfolding of `replaceAll` free of fuel bookkeeping. -/
lemma replaceAll_cons_eq (pat rep : Str) (c : Char) (cs : Str) :
    replaceAll pat rep (c :: cs) =
      if pat ≠ [] && startsWithStr pat (c :: cs) then
        rep ++ replaceAll pat rep ((c :: cs).drop pat.length)
      else c :: replaceAll pat rep cs := by
  rw [replaceAll, show (c :: cs).length = cs.length + 1 from rfl,
    replaceAllFuel]
  by_cases hcond : (pat ≠ [] && startsWithStr pat (c :: cs)) = true
  · simp only [if_pos hcond]
    have hcond' : pat ≠ [] ∧ startsWithStr pat (c :: cs) = true := by
      simpa using hcond
    have hp1 : 1 ≤ pat.length := by
      cases pat with
      | nil => exact absurd rfl hcond'.1
      | cons _ _ => simp
    rw [replaceAll]
    rw [replaceAllFuel_congr cs.length ((c :: cs).drop pat.length).length
      pat rep _ (by rw [List.length_drop]; simp only [List.length_cons]; omega)
      le_rfl]
  · simp only [if_neg hcond]
    rfl

/-- Scanning walks past a head character that cannot begin a match. -/
lemma replaceAll_cons_of_head_ne (p0 : Char) (pr rep : Str) (c : Char)
    (t : Str) (hne : c ≠ p0) :
    replaceAll (p0 :: pr) rep (c :: t) = c :: replaceAll (p0 :: pr) rep t := by
  rw [replaceAll_cons_eq]
  have : startsWithStr (p0 :: pr) (c :: t) = false := by
    simp only [startsWithStr, Bool.and_eq_false_iff, decide_eq_false_iff_not]
    exact Or.inl (fun h => hne h.symm)
  simp [this]

/-- Scanning walks past a whole block of characters none of which can begin
a match. -/
lemma replaceAll_append_of_head_notMem (p0 : Char) (pr rep : Str) :
    ∀ (u t : Str), (∀ d ∈ u, d ≠ p0) →
      replaceAll (p0 :: pr) rep (u ++ t) = u ++ replaceAll (p0 :: pr) rep t
  | [], t, _ => by simp
  | d :: u, t, hu => by
    rw [List.cons_append, replaceAll_cons_of_head_ne p0 pr rep d _
      (hu d (List.mem_cons_self _ _))]
    rw [replaceAll_append_of_head_notMem p0 pr rep u t
      (fun e he => hu e (List.mem_cons_of_mem _ he))]
    rfl

/-- A match at the very front is taken and replaced. -/
lemma replaceAll_self_append (p0 : Char) (pr rep t : Str) :
    replaceAll (p0 :: pr) rep ((p0 :: pr) ++ t) =
      rep ++ replaceAll (p0 :: pr) rep t := by
  rw [show (p0 :: pr) ++ t = p0 :: (pr ++ t) from rfl, replaceAll_cons_eq]
  have hsw : startsWithStr (p0 :: pr) (p0 :: (pr ++ t)) = true := by
    have := startsWithStr_append_self (p0 :: pr) t
    simpa using this
  have hcond : ((p0 :: pr) ≠ [] && startsWithStr (p0 :: pr) (p0 :: (pr ++ t)))
      = true := by
    simp [hsw]
  rw [if_pos hcond]
  congr 1
  have : (p0 :: (pr ++ t)).drop (p0 :: pr).length = t := by
    rw [show p0 :: (pr ++ t) = (p0 :: pr) ++ t from rfl]
    exact List.drop_left _ _
  rw [this]

/-- Decimal valuation of a digit string (proof-internal inverse of
`natDecimal`). -/
def decVal (s : Str) : Nat := s.foldl (fun a c => a * 10 + (c.toNat - 48)) 0

/-- Code of a decimal digit character. -/
lemma digitChar_toNat (d : Nat) (hd : d < 10) : (digitChar d).toNat = 48 + d := by
  interval_cases d <;> decide

/-- All characters of a decimal rendering are digits. -/
lemma natDecimalAux_digits :
    ∀ (fuel n : Nat), n < fuel → ∀ c ∈ natDecimalAux fuel n,
      48 ≤ c.toNat ∧ c.toNat ≤ 57
  | 0, n, h, c, hc => absurd h (by omega)
  | fuel + 1, n, h, c, hc => by
    rw [natDecimalAux] at hc
    by_cases hn : n < 10
    · simp only [if_pos hn, List.mem_singleton] at hc
      subst hc
      rw [digitChar_toNat n hn]
      omega
    · simp only [if_neg hn] at hc
      rcases List.mem_append.mp hc with h1 | h2
      · have hdiv : n / 10 < fuel := by
          have := Nat.div_lt_self (show 0 < n by omega) (show 1 < 10 by omega)
          omega
        exact natDecimalAux_digits fuel (n / 10) hdiv c h1
      · simp only [List.mem_singleton] at h2
        subst h2
        rw [digitChar_toNat _ (Nat.mod_lt n (by omega))]
        omega

/-- `decVal` inverts the decimal rendering. -/
lemma decVal_natDecimalAux :
    ∀ (fuel n : Nat), n < fuel → decVal (natDecimalAux fuel n) = n
  | 0, n, h => absurd h (by omega)
  | fuel + 1, n, h => by
    rw [natDecimalAux]
    by_cases hn : n < 10
    · simp only [if_pos hn]
      have hdc := digitChar_toNat n hn
      simp [decVal, hdc]
    · simp only [if_neg hn]
      have hdiv : n / 10 < fuel := by
        have := Nat.div_lt_self (show 0 < n by omega) (show 1 < 10 by omega)
        omega
      have ih := decVal_natDecimalAux fuel (n / 10) hdiv
      unfold decVal at ih ⊢
      rw [List.foldl_append, ih]
      simp only [List.foldl_cons, List.foldl_nil]
      rw [digitChar_toNat _ (Nat.mod_lt n (by omega))]
      omega

/-- Distinct naturals have distinct decimal renderings. -/
lemma natDecimal_inj {m n : Nat} (h : natDecimal m = natDecimal n) : m = n := by
  have hm := decVal_natDecimalAux (m + 1) m (Nat.lt_succ_self m)
  have hn := decVal_natDecimalAux (n + 1) n (Nat.lt_succ_self n)
  rw [show natDecimalAux (m + 1) m = natDecimal m from rfl, h] at hm
  rw [show natDecimalAux (n + 1) n = natDecimal n from rfl] at hn
  omega

/-- Two digit runs terminated by `>` and agreeing as lists must be the same
run (a digit is never `>`). -/
lemma digits_append_gt_inj :
    ∀ (a b u v : Str), (∀ c ∈ a, 48 ≤ c.toNat ∧ c.toNat ≤ 57) →
      (∀ c ∈ b, 48 ≤ c.toNat ∧ c.toNat ≤ 57) →
      a ++ '>' :: u = b ++ '>' :: v → a = b
  | [], [], _, _, _, _, _ => rfl
  | [], d :: b, u, v, _, hb, h => by
    injection h with h1 _
    have hd := hb d (List.mem_cons_self _ _)
    rw [← h1] at hd
    have h62 : ('>' : Char).toNat = 62 := rfl
    omega
  | c :: a, [], u, v, ha, _, h => by
    injection h with h1 _
    have hc := ha c (List.mem_cons_self _ _)
    rw [h1] at hc
    have h62 : ('>' : Char).toNat = 62 := rfl
    omega
  | c :: a, d :: b, u, v, ha, hb, h => by
    injection h with h1 h2
    rw [digits_append_gt_inj a b u v
      (fun e he => ha e (List.mem_cons_of_mem _ he))
      (fun e he => hb e (List.mem_cons_of_mem _ he)) h2, h1]

/-- The decimal run of one placeholder (with its closing `>>>`) never begins
the decimal-run-plus-`>>>`-plus-rest of a different placeholder. -/
lemma natDecimal_gt_startsWith_false (m n : Nat) (t : Str) (hmn : m ≠ n) :
    startsWithStr (natDecimal m ++ str ">>>")
      (natDecimal n ++ (str ">>>" ++ t)) = false := by
  by_contra hsw
  rw [Bool.not_eq_false] at hsw
  obtain ⟨u, hu⟩ := (startsWithStr_iff _ _).mp hsw
  have hn3 : natDecimal n ++ (str ">>>" ++ t) =
      natDecimal n ++ '>' :: (str ">>" ++ t) := rfl
  have hm3 : (natDecimal m ++ str ">>>") ++ u =
      natDecimal m ++ '>' :: (str ">>" ++ u) := by
    rw [List.append_assoc]
    rfl
  rw [hn3, hm3] at hu
  have heq := digits_append_gt_inj (natDecimal n) (natDecimal m) _ _
    (natDecimalAux_digits (n + 1) n (Nat.lt_succ_self n))
    (natDecimalAux_digits (m + 1) m (Nat.lt_succ_self m)) hu
  exact hmn (natDecimal_inj heq.symm)

/-- The placeholder's explicit head structure. -/
lemma placeholder_eq (i : Nat) :
    placeholder i = '<' :: '<' :: '<' ::
      (str "CODE_BLOCK_" ++ natDecimal i ++ str ">>>") := rfl

/-- Everything after the placeholder's `<<<` head is `<`-free. -/
lemma placeholder_tail_ne_lt (i : Nat) :
    ∀ c ∈ str "CODE_BLOCK_" ++ natDecimal i ++ str ">>>", c ≠ '<' := by
  intro c hc hEq
  subst hEq
  rcases List.mem_append.mp hc with h1 | h2
  · rcases List.mem_append.mp h1 with h3 | h4
    · revert h3
      decide
    · have hd := natDecimalAux_digits (i + 1) i (Nat.lt_succ_self i) _ h4
      have h60 : ('<' : Char).toNat = 60 := rfl
      omega
  · revert h2
    decide

/-- A scan for one placeholder walks straight past a different placeholder:
the two can only disagree inside the decimal run, where a digit meets a `>`
(or the runs are equal, forcing equal indices). -/
lemma replaceAll_placeholder_skip (m n : Nat) (b t : Str) (hmn : m ≠ n) :
    replaceAll (placeholder m) b (placeholder n ++ t) =
      placeholder n ++ replaceAll (placeholder m) b t := by
  have hphn : placeholder n ++ t = '<' :: '<' :: '<' ::
      ((str "CODE_BLOCK_" ++ natDecimal n ++ str ">>>") ++ t) := rfl
  have hsw0 : startsWithStr (placeholder m)
      ('<' :: '<' :: '<' ::
        ((str "CODE_BLOCK_" ++ natDecimal n ++ str ">>>") ++ t)) = false := by
    have e1 : placeholder m =
        str "<<<CODE_BLOCK_" ++ (natDecimal m ++ str ">>>") := by
      simp only [placeholder]
      rw [List.append_assoc]
    have e2 : ('<' :: '<' :: '<' ::
        ((str "CODE_BLOCK_" ++ natDecimal n ++ str ">>>") ++ t) : Str) =
        str "<<<CODE_BLOCK_" ++ (natDecimal n ++ (str ">>>" ++ t)) := by
      rw [show (str "<<<CODE_BLOCK_" : Str) =
        '<' :: '<' :: '<' :: str "CODE_BLOCK_" from rfl]
      simp [List.append_assoc]
    rw [e1, e2, startsWithStr_append_cancel]
    exact natDecimal_gt_startsWith_false m n t hmn
  have hsw1 : startsWithStr (placeholder m)
      ('<' :: '<' ::
        ((str "CODE_BLOCK_" ++ natDecimal n ++ str ">>>") ++ t)) = false := by
    rw [placeholder_eq m,
      show (str "CODE_BLOCK_" ++ natDecimal n ++ str ">>>") ++ t =
        'C' :: ((str "ODE_BLOCK_" ++ natDecimal n ++ str ">>>") ++ t) from rfl]
    simp [startsWithStr]
  have hsw2 : startsWithStr (placeholder m)
      ('<' ::
        ((str "CODE_BLOCK_" ++ natDecimal n ++ str ">>>") ++ t)) = false := by
    rw [placeholder_eq m,
      show (str "CODE_BLOCK_" ++ natDecimal n ++ str ">>>") ++ t =
        'C' :: ((str "ODE_BLOCK_" ++ natDecimal n ++ str ">>>") ++ t) from rfl]
    simp [startsWithStr]
  rw [hphn, replaceAll_cons_eq]
  rw [hsw0]
  simp only [Bool.and_false, if_neg (by simp : ¬ (false = true))]
  rw [replaceAll_cons_eq, hsw1]
  simp only [Bool.and_false, if_neg (by simp : ¬ (false = true))]
  rw [replaceAll_cons_eq, hsw2]
  simp only [Bool.and_false, if_neg (by simp : ¬ (false = true))]
  rw [placeholder_eq m, replaceAll_append_of_head_notMem '<' _ b _ t
    (placeholder_tail_ne_lt n)]
  rfl

/-- `splitAtFirstTriple` decomposes its input around the found fence. -/
lemma splitAtFirstTriple_eq :
    ∀ (s a b : Str), splitAtFirstTriple s = some (a, b) →
      s = a ++ tripleTick ++ b
  | [], a, b, h => by simp [splitAtFirstTriple] at h
  | c :: cs, a, b, h => by
    rw [splitAtFirstTriple] at h
    by_cases hsw : startsWithStr tripleTick (c :: cs) = true
    · rw [if_pos hsw] at h
      simp only [Option.some.injEq, Prod.mk.injEq] at h
      obtain ⟨ha, hb⟩ := h
      subst ha
      subst hb
      obtain ⟨t, ht⟩ := (startsWithStr_iff _ _).mp hsw
      have hdrop : cs.drop 2 = t := by
        have h1 : (c :: cs).drop 3 = cs.drop 2 := rfl
        rw [← h1, ht, show (3 : Nat) = tripleTick.length from rfl,
          List.drop_left]
      rw [hdrop]
      simpa using ht
    · rw [if_neg hsw] at h
      rcases hmap : splitAtFirstTriple cs with _ | ⟨a', b'⟩
      · rw [hmap] at h
        cases h
      · rw [hmap] at h
        simp only [Option.map_some', Option.some.injEq, Prod.mk.injEq] at h
        obtain ⟨ha, hb⟩ := h
        subst ha
        subst hb
        have := splitAtFirstTriple_eq cs a' b' hmap
        rw [show (c :: a') ++ tripleTick ++ b' =
          c :: (a' ++ tripleTick ++ b') from rfl, ← this]

/-- A successful `pcbStep` decomposes its input as
`opening fence ++ middle ++ closing fence ++ rest`. -/
lemma pcbStep_eq (s mid rest : Str) (h : pcbStep s = some (mid, rest)) :
    s = tripleTick ++ mid ++ tripleTick ++ rest := by
  rw [pcbStep] at h
  by_cases hsw : startsWithStr tripleTick s = true
  · rw [if_pos hsw] at h
    obtain ⟨t, ht⟩ := (startsWithStr_iff _ _).mp hsw
    have hdrop : s.drop 3 = t := by
      rw [ht, show (3 : Nat) = tripleTick.length from rfl, List.drop_left]
    rw [hdrop] at h
    have := splitAtFirstTriple_eq t mid rest h
    rw [ht, this]
    simp [List.append_assoc]
  · rw [if_neg hsw] at h
    cases h

/-- The scanned text produced with placeholder indices from `n` on contains
no occurrence of an earlier placeholder `m < n` (for `<`-free input). -/
lemma pcbAux_no_earlier_placeholder :
    ∀ (fuel : Nat) (s : Str) (n m : Nat) (b : Str), s.length ≤ fuel →
      (∀ c ∈ s, c ≠ '<') → m < n →
      replaceAll (placeholder m) b (pcbAux fuel s n).1 = (pcbAux fuel s n).1
  | 0, s, n, m, b, _, _, _ => by
    rw [pcbAux]
    rfl
  | fuel + 1, s, n, m, b, hf, hlt, hmn => by
    simp only [pcbAux]
    cases hstep : pcbStep s with
    | some p =>
      obtain ⟨mid, rest⟩ := p
      have hs := pcbStep_eq s mid rest hstep
      have h3 : tripleTick.length = 3 := rfl
      have hlens := congrArg List.length hs
      simp only [List.length_append, h3] at hlens
      have hrest : rest.length ≤ fuel := by omega
      have hltrest : ∀ c ∈ rest, c ≠ '<' := by
        intro c hc
        exact hlt c (by rw [hs]; simp [hc])
      dsimp only
      rw [replaceAll_placeholder_skip m n b _ (by omega)]
      rw [pcbAux_no_earlier_placeholder fuel rest (n + 1) m b hrest hltrest
        (by omega)]
    | none =>
      cases s with
      | nil =>
        dsimp only
        rfl
      | cons c cs =>
        have hc : c ≠ '<' := hlt c (List.mem_cons_self _ _)
        have hltcs : ∀ d ∈ cs, d ≠ '<' :=
          fun d hd => hlt d (List.mem_cons_of_mem _ hd)
        dsimp only
        rw [placeholder_eq m, replaceAll_cons_of_head_ne _ _ _ _ _ hc,
          ← placeholder_eq m]
        rw [pcbAux_no_earlier_placeholder fuel cs n m b
          (by simp only [List.length_cons] at hf; omega) hltcs hmn]

/-- Restoration distributes over a `<`-free prefix: no placeholder can begin
inside it. -/
lemma restoreFrom_append (bs : List Str) :
    ∀ (i : Nat) (u t : Str), (∀ c ∈ u, c ≠ '<') →
      restoreCodeBlocksFrom i (u ++ t) bs =
        u ++ restoreCodeBlocksFrom i t bs := by
  induction bs with
  | nil =>
    intro i u t _
    rfl
  | cons b bs ih =>
    intro i u t hu
    rw [restoreCodeBlocksFrom, placeholder_eq i,
      replaceAll_append_of_head_notMem '<' _ b u t hu, ← placeholder_eq i,
      ih (i + 1) u _ hu]
    rfl

/-- Round trip of the fenced-code-block scan for `<`-free input: restoring
the collected blocks into the placeholder text recovers the input exactly. -/
lemma pcbAux_restore :
    ∀ (fuel : Nat) (s : Str) (n : Nat), s.length ≤ fuel →
      (∀ c ∈ s, c ≠ '<') →
      restoreCodeBlocksFrom n (pcbAux fuel s n).1 (pcbAux fuel s n).2 = s
  | 0, s, n, hf, _ => by
    have : s = [] := List.length_eq_zero.mp (Nat.le_zero.mp hf)
    subst this
    rw [pcbAux]
    rfl
  | fuel + 1, s, n, hf, hlt => by
    simp only [pcbAux]
    cases hstep : pcbStep s with
    | some p =>
      obtain ⟨mid, rest⟩ := p
      have hs := pcbStep_eq s mid rest hstep
      have h3 : tripleTick.length = 3 := rfl
      have hlens := congrArg List.length hs
      simp only [List.length_append, h3] at hlens
      have hrest : rest.length ≤ fuel := by omega
      have hltrest : ∀ c ∈ rest, c ≠ '<' := by
        intro c hc
        exact hlt c (by rw [hs]; simp [hc])
      have htick : ∀ c ∈ tripleTick, c ≠ '<' := by decide
      have hltblock : ∀ c ∈ tripleTick ++ mid ++ tripleTick, c ≠ '<' := by
        intro c hc
        rcases List.mem_append.mp hc with h1 | h2
        · rcases List.mem_append.mp h1 with h3' | h4
          · exact htick c h3'
          · exact hlt c (by rw [hs]; simp [h4])
        · exact htick c h2
      dsimp only
      rw [restoreCodeBlocksFrom]
      rw [placeholder_eq n,
        replaceAll_self_append '<' _ (tripleTick ++ mid ++ tripleTick) _,
        ← placeholder_eq n]
      rw [pcbAux_no_earlier_placeholder fuel rest (n + 1) n
        (tripleTick ++ mid ++ tripleTick) hrest hltrest (Nat.lt_succ_self n)]
      rw [restoreFrom_append _ (n + 1) _ _ hltblock]
      rw [pcbAux_restore fuel rest (n + 1) hrest hltrest]
      rw [hs]
    | none =>
      cases s with
      | nil =>
        dsimp only
        rfl
      | cons c cs =>
        have hc : c ≠ '<' := hlt c (List.mem_cons_self _ _)
        have hltcs : ∀ d ∈ cs, d ≠ '<' :=
          fun d hd => hlt d (List.mem_cons_of_mem _ hd)
        dsimp only
        have hcons : restoreCodeBlocksFrom n (c :: (pcbAux fuel cs n).1)
            (pcbAux fuel cs n).2 =
            c :: restoreCodeBlocksFrom n (pcbAux fuel cs n).1
              (pcbAux fuel cs n).2 := by
          have := restoreFrom_append (pcbAux fuel cs n).2 n [c]
            (pcbAux fuel cs n).1 (by simpa using hc)
          simpa using this
        rw [hcons, pcbAux_restore fuel cs n
          (by simp only [List.length_cons] at hf; omega) hltcs]

/-!
## C3 — the output-fits-budget bound
-/

/-- C3 counterexample: with budget 10 (`max_tokens = 10`, `token_buffer = 0`)
the two-section report below (estimates 5 + 5, no priority-1 content, both
sections kept whole) estimates to 11 tokens, yet the reassembled output
estimates to 12 tokens — over budget although the priority-1 sections alone
(none) do not exceed it: the `"\n\n"` separators and per-section floor
rounding are unaccounted for by the claim. -/
theorem C3_counterexample :
    ¬ (estimate_tokens
        (str "# background\nAAAAAAAAAA\n# timeline\nBBBBBBBBBBBB") : Int) ≤
        (10 : Int) - (0 : Int) ∧
    (preservedTotalOf (identify_sections
        (str "# background\nAAAAAAAAAA\n# timeline\nBBBBBBBBBBBB")) : Int) ≤
        (10 : Int) - (0 : Int) ∧
    ¬ (estimate_tokens
        (truncate 10 0
          (str "# background\nAAAAAAAAAA\n# timeline\nBBBBBBBBBBBB")).1 : Int) ≤
        (10 : Int) - (0 : Int) :=
  ⟨by decide, by decide, by decide⟩

/-- C3 (amended): for every input text whose estimate exceeds the effective
budget, provided the priority-1 (preserve-complete) sections alone do not
exceed the budget and no `truncate_section` call of the allocation loop
overshoots the target it was given (`noOvershoot`), the estimated token
count of `truncate`'s output is at most the effective budget plus a
reassembly overhead of at most two tokens per identified section (the
`"\n\n"` separators and the per-section rounding of the `len // 4`
estimate). -/
theorem C3_truncated_output_within_budget (max_tokens token_buffer : Nat)
    (text : Str)
    (hover : ¬ (estimate_tokens text : Int) ≤
      (max_tokens : Int) - (token_buffer : Int))
    (hpt : (preservedTotalOf (identify_sections text) : Int) ≤
      (max_tokens : Int) - (token_buffer : Int))
    (hnov : noOvershoot (otherSectionsOf (identify_sections text))
      (((max_tokens : Int) - (token_buffer : Int)) -
        preservedTotalOf (identify_sections text)) = true) :
    (estimate_tokens (truncate max_tokens token_buffer text).1 : Int) ≤
      ((max_tokens : Int) - (token_buffer : Int)) +
        2 * (identify_sections text).length := by
  rw [truncate_eq]
  simp only [if_neg hover]
  exact truncateSectioned_estimate_le _ _ hpt hnov

/-- C3 witness: the two-section over-budget report satisfies all hypotheses
and its output estimate (12) fits the budget-plus-overhead bound (14). -/
theorem C3_truncated_output_within_budget_witness :
    (¬ (estimate_tokens
        (str "# background\nAAAAAAAAAA\n# timeline\nBBBBBBBBBBBB") : Int) ≤
        (10 : Int) - (0 : Int)) ∧
    (estimate_tokens
        (truncate 10 0
          (str "# background\nAAAAAAAAAA\n# timeline\nBBBBBBBBBBBB")).1 : Int) ≤
      ((10 : Int) - (0 : Int)) +
        2 * (identify_sections
          (str "# background\nAAAAAAAAAA\n# timeline\nBBBBBBBBBBBB")).length :=
  ⟨by decide,
    C3_truncated_output_within_budget 10 0
      (str "# background\nAAAAAAAAAA\n# timeline\nBBBBBBBBBBBB")
      (by decide) (by decide) (by decide)⟩

/-!
## C9 — the code-block extract/restore round trip
-/

/-- C9 counterexample: an input that already contains the literal placeholder
token `<<<CODE_BLOCK_0>>>` alongside a real fenced block does not round-trip:
`str.replace` rewrites the pre-existing token too, yielding
`"```x```a```x```"` instead of the input. -/
theorem C9_counterexample :
    restore_code_blocks
        (preserve_code_blocks (str "<<<CODE_BLOCK_0>>>a```x```")).1
        (preserve_code_blocks (str "<<<CODE_BLOCK_0>>>a```x```")).2 ≠
      str "<<<CODE_BLOCK_0>>>a```x```" := by
  decide

/-- C9 (amended): extracting fenced code blocks and then restoring them is
the identity on every input text in which the character `<` does not occur —
in particular on every input free of placeholder tokens
`<<<CODE_BLOCK_i>>>`.  (Inputs containing such tokens can alias the
positional placeholders and break the round trip.) -/
theorem C9_preserve_restore_roundtrip (t : Str)
    (h : ∀ c ∈ t, c ≠ '<') :
    restore_code_blocks (preserve_code_blocks t).1
      (preserve_code_blocks t).2 = t :=
  pcbAux_restore t.length t 0 le_rfl h

/-- C9 witness: a concrete report fragment with two fenced blocks
round-trips exactly. -/
theorem C9_preserve_restore_roundtrip_witness :
    (∀ c ∈ str "a\n```py\nx = 1\n```\nmid```raw```end", c ≠ '<') ∧
      restore_code_blocks
          (preserve_code_blocks (str "a\n```py\nx = 1\n```\nmid```raw```end")).1
          (preserve_code_blocks (str "a\n```py\nx = 1\n```\nmid```raw```end")).2 =
        str "a\n```py\nx = 1\n```\nmid```raw```end" :=
  ⟨by decide,
    C9_preserve_restore_roundtrip (str "a\n```py\nx = 1\n```\nmid```raw```end")
      (by decide)⟩

/-!
## C4 — priority-1 sections are preserved byte-for-byte
-/

/-- C4: for every input text, the content of every identified section with
priority-1 `preserve_complete = true` — including any fenced code block
inside it, which is a substring of that content — appears byte-for-byte as a
contiguous substring of `truncate`'s output, whatever the budget: preserved
sections are never shortened, even when keeping them overflows the nominal
budget. -/
theorem C4_preserved_sections_intact (max_tokens token_buffer : Nat)
    (text : Str) (s : Section)
    (hs : s ∈ identify_sections text) (hp : s.preserve_complete = true) :
    ∃ u v, (truncate max_tokens token_buffer text).1 = u ++ s.content ++ v := by
  rw [truncate_eq]
  by_cases hb : (estimate_tokens text : Int) ≤
      (max_tokens : Int) - (token_buffer : Int)
  · simpa [if_pos hb] using identify_sections_content text s hs
  · simp only [if_neg hb]
    simpa using truncateSectioned_preserved_infix
      ((max_tokens : Int) - (token_buffer : Int)) (identify_sections text) s
      hs hp

/-- C4 witness: in a concrete over-budget report, the preserved
"Title/Summary" section (fenced code block included) survives verbatim. -/
theorem C4_preserved_sections_intact_witness :
    ∃ u v,
      (truncate 10 0
        (str "# Summary\nSee ```p()``` now\n# Logs\n0123456789012345678901234567890123456789")).1 =
        u ++ str "# Summary\nSee ```p()``` now" ++ v :=
  C4_preserved_sections_intact 10 0
    (str "# Summary\nSee ```p()``` now\n# Logs\n0123456789012345678901234567890123456789")
    ⟨str "Title/Summary", str "# Summary\nSee ```p()``` now", 1, true⟩
    (by decide) (by decide)

/-!
## C1 — the verdict on iteration-cap exhaustion
-/

/-- C1 counterexample: a concrete run that exhausts its 5-iteration cap with
no early stop (every retrieval scores 0.5) and no parseable final answer
returns the parse-failure fallback verdict — its status is `"new"`, not the
claimed `"similar"`. -/
theorem C1_counterexample :
    runDetection (fun _ => none)
        (fun _ => AgentTurn.toolCall none (str "sql injection login") 20)
        (fun _ _ => Except.ok
          [⟨str "rep-1", mkRat 1 2, ⟨str "t", str "s", str "v", str "c", []⟩⟩])
        5 0 ⟨initMetadata, []⟩ = create_fallback_result ∧
      create_fallback_result.status = str "new" ∧
      create_fallback_result.status ≠ str "similar" :=
  ⟨by decide, by decide, by decide⟩

/-- C1 (amended): a detection run that ends because the iteration cap is
reached without a parseable final answer (and with no early stop triggered)
returns the very same fallback verdict as a parse failure —
`status = "new"`, `is_duplicate = false`, `similarity_score = 0.0`; no
distinct `"similar"` cap-exhaustion verdict exists in the code. -/
theorem C1_cap_exhaustion_fallback (J : Str → Option ParsedAnswer)
    (turns : Nat → AgentTurn)
    (retrieve : Str → Nat → Except Unit (List SearchResult))
    (i : Nat) (st : RunState)
    (hnostop : (decide (st.metadata.top_score > mkRat 9 10) &&
      truthyId st.metadata.top_report_id) = false)
    (hparse : parse_json_from_text J st.last_text = none) :
    runDetection J turns retrieve 0 i st = create_fallback_result ∧
      create_fallback_result =
        ⟨false, 0, none, str "new", []⟩ := by
  refine ⟨?_, rfl⟩
  simp [runDetection, verdictFromRun, hnostop, hparse]

/-- C1 witness: a concrete cap-exhausted state with empty metadata and an
unparseable last text yields the fallback verdict. -/
theorem C1_cap_exhaustion_fallback_witness :
    ((decide ((initMetadata).top_score > mkRat 9 10) &&
        truthyId (initMetadata).top_report_id) = false) ∧
      runDetection (fun _ => none) (fun _ => AgentTurn.finalText (str "x"))
        (fun _ _ => Except.ok []) 0 0 ⟨initMetadata, str "no json here"⟩ =
        create_fallback_result :=
  ⟨by decide,
    (C1_cap_exhaustion_fallback (fun _ => none)
      (fun _ => AgentTurn.finalText (str "x")) (fun _ _ => Except.ok []) 0
      ⟨initMetadata, str "no json here"⟩ (by decide) (by decide)).1⟩

/-!
## C6 — graceful degradation of hybrid search
-/

/-- C6 counterexample: an embedder that fails on both paths while the vector
store is perfectly available (its dense query succeeds) makes
`hybrid_search` raise to its caller, refuting "never raises … except when the
vector store itself is unavailable". -/
theorem C6_counterexample :
    (HybridOracles.denseQuery
        ⟨Except.error (), Except.ok (), fun _ => Except.ok [],
          Except.error (), fun _ => Except.ok []⟩ 20 = Except.ok []) ∧
      hybrid_search
        ⟨Except.error (), Except.ok (), fun _ => Except.ok [],
          Except.error (), fun _ => Except.ok []⟩ 20 = Except.error () :=
  ⟨rfl, rfl⟩

/-- C6 (amended): if any error is raised on the dual-representation path,
`hybrid_search` falls back to the dense-only search with the same limit and
returns its results; it raises to its caller only when the dense-only
fallback path itself fails — that is, when the fallback query embedding or
the store's dense query fails. -/
theorem C6_dense_fallback (o : HybridOracles) (lim : Nat) :
    (∀ e, dualPath o lim = Except.error e →
      hybrid_search o lim = densePath o lim) ∧
    (∀ e, hybrid_search o lim = Except.error e →
      (∃ e', dualPath o lim = Except.error e') ∧
        (o.denseEmbedFallback = Except.error () ∨
          o.denseQuery lim = Except.error ())) := by
  constructor
  · intro e h
    simp [hybrid_search, h]
  · intro e h
    cases hd : dualPath o lim with
    | ok pts =>
      rw [hybrid_search.eq_def, hd] at h
      cases h
    | error e' =>
      refine ⟨⟨e', rfl⟩, ?_⟩
      rw [hybrid_search.eq_def, hd] at h
      rw [densePath.eq_def] at h
      cases hf : o.denseEmbedFallback with
      | error u => cases u; exact Or.inl rfl
      | ok u =>
        rw [hf] at h
        cases hq : o.denseQuery lim with
        | error u => cases u; exact Or.inr rfl
        | ok pts =>
          rw [hq] at h
          cases h

/-- C6 witness: a concrete dual-path failure with a healthy fallback path
degrades to the dense-only result. -/
theorem C6_dense_fallback_witness :
    hybrid_search
        ⟨Except.error (), Except.ok (), fun _ => Except.ok [], Except.ok (),
          fun _ => Except.ok [⟨str "rep-9", mkRat 3 4, ⟨str "t", str "s", str "v", str "c", []⟩⟩]⟩ 7 =
      densePath
        ⟨Except.error (), Except.ok (), fun _ => Except.ok [], Except.ok (),
          fun _ => Except.ok [⟨str "rep-9", mkRat 3 4, ⟨str "t", str "s", str "v", str "c", []⟩⟩]⟩ 7 :=
  (C6_dense_fallback _ 7).1 () rfl

/-!
## C7 — the re-ranking contract
-/

/-- C7: `rerank_results` returns at most `top_k` results; every returned
result's identifier and report payload come from the input candidate list;
and on the non-degraded path each returned result's score is exactly the
re-ranking model's score for its passage (the original retrieval score is
replaced, not blended). -/
theorem C7_rerank_contract (outcome : Except Unit (List (Str × ℚ)))
    (candidates : List SearchResult) (top_k : Nat) :
    (rerank_results outcome candidates top_k).length ≤ top_k ∧
    (∀ r ∈ rerank_results outcome candidates top_k,
      ∃ c ∈ candidates, r.report_id = c.report_id ∧ r.report = c.report) ∧
    (∀ ranked, outcome = Except.ok ranked →
      ∀ r ∈ rerank_results outcome candidates top_k,
        ∃ p ∈ ranked.take top_k, r.report_id = p.1 ∧ r.score = p.2) := by
  by_cases hc : candidates = []
  · simp [rerank_results, hc]
  · cases outcome with
    | error e =>
      refine ⟨?_, ?_, ?_⟩
      · simp only [rerank_results, if_neg hc]
        exact List.length_take_le top_k candidates
      · intro r hr
        rw [rerank_results] at hr
        simp only [if_neg hc] at hr
        exact ⟨r, List.mem_of_mem_take hr, rfl, rfl⟩
      · intro ranked hranked
        cases hranked
    | ok ranked =>
      have hmem : ∀ r ∈ rerank_results (Except.ok ranked) candidates top_k,
          ∃ p ∈ ranked.take top_k,
            ∃ orig ∈ candidates, candidates.find? (fun c => c.report_id == p.1) = some orig ∧
              r = ⟨orig.report_id, p.2, orig.report⟩ := by
        intro r hr
        rw [rerank_results] at hr
        simp only [if_neg hc] at hr
        obtain ⟨p, hp, hfp⟩ := List.mem_filterMap.mp hr
        cases hfind : candidates.find? (fun c => c.report_id == p.1) with
        | none => rw [hfind] at hfp; cases hfp
        | some orig =>
          rw [hfind] at hfp
          refine ⟨p, hp, orig, List.mem_of_find?_eq_some hfind, hfind, ?_⟩
          cases hfp
          rfl
      refine ⟨?_, ?_, ?_⟩
      · rw [rerank_results]
        simp only [if_neg hc]
        exact le_trans (List.length_filterMap_le _ _)
          (List.length_take_le top_k ranked)
      · intro r hr
        obtain ⟨p, _, orig, horig, _, hr_eq⟩ := hmem r hr
        exact ⟨orig, horig, by rw [hr_eq], by rw [hr_eq]⟩
      · intro ranked' hranked' r hr
        cases hranked'
        obtain ⟨p, hp, orig, _, hfind, hr_eq⟩ := hmem r hr
        have hid : orig.report_id = p.1 := by
          have := List.find?_some hfind
          simpa using this
        exact ⟨p, hp, by rw [hr_eq]; exact hid, by rw [hr_eq]⟩

/-- C7 witness: re-ranking two concrete candidates to `top_k = 1` returns a
result whose identifier and payload come from the input candidate list. -/
theorem C7_rerank_contract_witness :
    ∃ c ∈ [(⟨str "a", mkRat 1 2, ⟨str "t1", str "s1", str "v1", str "c1", []⟩⟩ : SearchResult),
           (⟨str "b", mkRat 1 3, ⟨str "t2", str "s2", str "v2", str "c2", []⟩⟩ : SearchResult)],
      (⟨str "b", mkRat 9 10, ⟨str "t2", str "s2", str "v2", str "c2", []⟩⟩ : SearchResult).report_id
          = c.report_id ∧
        (⟨str "b", mkRat 9 10, ⟨str "t2", str "s2", str "v2", str "c2", []⟩⟩ : SearchResult).report
          = c.report :=
  (C7_rerank_contract (Except.ok [(str "b", mkRat 9 10), (str "a", mkRat 7 10)])
    [⟨str "a", mkRat 1 2, ⟨str "t1", str "s1", str "v1", str "c1", []⟩⟩,
     ⟨str "b", mkRat 1 3, ⟨str "t2", str "s2", str "v2", str "c2", []⟩⟩] 1).2.1
    ⟨str "b", mkRat 9 10, ⟨str "t2", str "s2", str "v2", str "c2", []⟩⟩ (by decide)

end Mnemosyne
